import Mathlib

/-!
Verification of the isolation-forest anomaly-detection service.

The Go sources are embedded shallowly:
* package `iforest` (isolation forest for 1D data) — namespace `iforest`;
* package `main` of the detection service (sanitizer, normalizer,
  selector, event reporter) — namespace `ifservice`.

`float64` values are modelled as real numbers (exact real arithmetic);
`int` values as `ℤ` (or `ℕ` where Go would panic on negative values).
The shared pseudo-random generator is modelled by explicit parameters:
`g : ℕ → ℝ` is the stream of `rand.Float64()` outcomes (consumed at an
explicit counter position threaded through the computation) and
`sample : ℕ → ℕ → ℕ` gives the outcome of `rand.Intn(len(data))` for
tree `i`, slot `j`.  Theorems quantify over these parameters, i.e. over
every outcome of the random source (hypotheses state the generators'
range contracts: `0 ≤ g k < 1`, `sample i j < len(data)`).
-/

namespace iforest

/-- Go `type Tree struct { Split float64; Left, Right *Tree; Leaf bool; Depth int }`.
`fitTree` only ever produces either a leaf (`Leaf: true`, nil children) or an
internal node with both children set, so the struct is embedded as an inductive
with those two shapes; the defensive `t.Left == nil || t.Right == nil` test in
`pathLenTree` coincides with the leaf test on this type. -/
inductive Tree where
  | leaf (depth : ℤ)
  | node (split : ℝ) (left right : Tree) (depth : ℤ)

/-- Go `type Forest struct { Trees []*Tree; C float64 }`. -/
structure Forest where
  trees : List Tree
  c : ℝ

/-- The `minV` computed by the scan loop in `fitTree`: starts from `data[0]`
and takes `min` over all elements (for empty data the start value is the
`float64` zero value, a case `fitTree` never reaches past its guards). -/
noncomputable def dataMin (data : List ℝ) : ℝ := data.foldl min (data.headD 0)

/-- The `maxV` computed by the scan loop in `fitTree`. -/
noncomputable def dataMax (data : List ℝ) : ℝ := data.foldl max (data.headD 0)

/-- Go `fitTree(data []float64, depth, maxDepth int) *Tree`:
builds a random isolation tree on a subsample.  `g` is the stream of
`rand.Float64()` outcomes and `n` the current position in that stream;
the call returns the tree together with the next stream position. -/
noncomputable def fitTree (g : ℕ → ℝ) (data : List ℝ) (depth maxDepth : ℤ) (n : ℕ) :
    Tree × ℕ :=
  if maxDepth ≤ depth ∨ data.length ≤ 1 then (Tree.leaf depth, n)
  else
    let minV := dataMin data
    let maxV := dataMax data
    if minV = maxV then (Tree.leaf depth, n)
    else
      let split := minV + g n * (maxV - minV)
      let left := data.filter (fun v => decide (v < split))
      let right := data.filter (fun v => ! decide (v < split))
      let res1 := fitTree g left (depth + 1) maxDepth (n + 1)
      let res2 := fitTree g right (depth + 1) maxDepth res1.2
      (Tree.node split res1.1 res2.1 depth, res2.2)
termination_by (maxDepth - depth).toNat
decreasing_by
  all_goals omega

/-- Fuel-indexed variant of `fitTree`, structurally recursive on the fuel:
`none` means the fuel was exhausted before the recursion finished.  Used to
establish that the recursion in `fitTree` terminates within
`maxDepth - depth + 1` levels on every input. -/
noncomputable def fitTreeFuel (g : ℕ → ℝ) :
    ℕ → List ℝ → ℤ → ℤ → ℕ → Option (Tree × ℕ)
  | 0, _, _, _, _ => none
  | fuel + 1, data, depth, maxDepth, n =>
    if maxDepth ≤ depth ∨ data.length ≤ 1 then some (Tree.leaf depth, n)
    else
      let minV := dataMin data
      let maxV := dataMax data
      if minV = maxV then some (Tree.leaf depth, n)
      else
        let split := minV + g n * (maxV - minV)
        let left := data.filter (fun v => decide (v < split))
        let right := data.filter (fun v => ! decide (v < split))
        (fitTreeFuel g fuel left (depth + 1) maxDepth (n + 1)).bind fun res1 =>
          (fitTreeFuel g fuel right (depth + 1) maxDepth res1.2).map fun res2 =>
            (Tree.node split res1.1 res2.1 depth, res2.2)

/-- Go `averagePathLength(n int) float64`: `c(n) = 2H(n-1) - 2(n-1)/n`
with `H` the harmonic number (the loop `for i := 1; i < n; i++ { h += 1/i }`),
and `0` for `n <= 1`. -/
noncomputable def harmonicSum (m : ℕ) : ℝ :=
  ((List.range m).map (fun i => 1 / ((i : ℝ) + 1))).sum

noncomputable def averagePathLength (n : ℤ) : ℝ :=
  if n ≤ 1 then 0
  else 2 * harmonicSum (n - 1).toNat - 2 * ((n : ℝ) - 1) / (n : ℝ)

/-- The clamp at the top of `New`:
`if psi <= 0 || psi > len(data) { psi = len(data) }`. -/
def clampPsi (psi : ℤ) (n : ℕ) : ℤ :=
  if psi ≤ 0 ∨ (n : ℤ) < psi then (n : ℤ) else psi

/-- `maxDepth := int(math.Ceil(math.Log2(float64(psi))))` in `New`.
For `psi ≥ 1` the value is exactly `⌈log₂ psi⌉ = Nat.clog 2 psi`
(`math.Log2` is exact on powers of two and rounding never crosses an integer
boundary for the sizes the clamp permits); for `psi = 0` the float chain gives
`int(Ceil(-Inf))`, the minimum `int64`, `-(2^63)`. -/
def maxDepthGo (p : ℤ) : ℤ :=
  if p ≤ 0 then -(2 ^ 63) else (Nat.clog 2 p.toNat : ℤ)

/-- The spec's maximum depth: `ceil(log2(ψ))`, defined as `0` when `ψ ≤ 1`. -/
def maxDepthSpec (p : ℤ) : ℤ :=
  if p ≤ 1 then 0 else (Nat.clog 2 p.toNat : ℤ)

/-- The tree-building loop of `New`: for each tree index `i` it fills the
subsample `subsample[j] = data[rand.Intn(len(data))]` for `j < psiN` and
fits one tree, threading the `rand.Float64()` stream position `n`. -/
noncomputable def buildTrees (g : ℕ → ℝ) (sample : ℕ → ℕ → ℕ) (data : List ℝ)
    (psiN : ℕ) (maxD : ℤ) : List ℕ → ℕ → List Tree × ℕ
  | [], n => ([], n)
  | i :: is, n =>
    let sub := (List.range psiN).map (fun j => data.getD (sample i j) 0)
    let res1 := fitTree g sub 0 maxD n
    let res2 := buildTrees g sample data psiN maxD is res1.2
    (res1.1 :: res2.1, res2.2)

/-- Go `New(data []float64, t, psi int) *Forest`: builds an isolation forest
with `t` trees, each trained on a bootstrap subsample of size `psi`
(clamped to `len(data)`).  `t` is a `ℕ` since `make([]*Tree, t)` panics for
negative `t`. -/
noncomputable def New (data : List ℝ) (t : ℕ) (psi0 : ℤ) (g : ℕ → ℝ)
    (sample : ℕ → ℕ → ℕ) : Forest :=
  let psi := clampPsi psi0 data.length
  { trees := (buildTrees g sample data psi.toNat (maxDepthGo psi) (List.range t) 0).1
    c := averagePathLength psi }

/-- Go `pathLenTree(t *Tree, x float64) float64`: descend following
`x < t.Split` until a leaf and return the leaf's stored depth (an integer). -/
noncomputable def pathLenTree : Tree → ℝ → ℤ
  | Tree.leaf d, _ => d
  | Tree.node s l r _, x => if x < s then pathLenTree l x else pathLenTree r x

/-- Go `(f *Forest) pathLength(x float64) float64`: the average of
`pathLenTree` over all trees (`pl / float64(len(f.Trees))`). -/
noncomputable def pathLength (f : Forest) (x : ℝ) : ℝ :=
  (f.trees.map (fun t => ((pathLenTree t x : ℤ) : ℝ))).sum / (f.trees.length : ℝ)

/-- Go `(f *Forest) Score(x float64) float64`:
`0` when `f.C == 0`, otherwise `math.Pow(2, -E/f.C)` with `E` the path length. -/
noncomputable def Score (f : Forest) (x : ℝ) : ℝ :=
  if f.c = 0 then 0 else (2 : ℝ) ^ (-(pathLength f x) / f.c)

/-- All depths stored in a tree (the root's depth followed by the depths in
both subtrees; a leaf contributes its stored depth). -/
def nodeDepths : Tree → List ℤ
  | Tree.leaf d => [d]
  | Tree.node _ l r d => d :: (nodeDepths l ++ nodeDepths r)

/-- The split threshold stored at the root, when the root is an internal
node. -/
def rootSplit : Tree → Option ℝ
  | Tree.leaf _ => none
  | Tree.node s _ _ _ => some s

end iforest

namespace ifservice

/-- A `float64` as classified by `math.IsNaN` / `math.IsInf`: not-a-number,
one of the two infinities, or a finite value (modelled exactly as a real). -/
inductive GoFloat where
  | nan
  | posInf
  | negInf
  | finite (v : ℝ)

/-- Go `sane(v float64) (float64, bool)`:
`(0, false)` for NaN or either infinity, `(v, true)` otherwise. -/
def sane : GoFloat → ℝ × Bool
  | GoFloat.nan => (0, false)
  | GoFloat.posInf => (0, false)
  | GoFloat.negInf => (0, false)
  | GoFloat.finite v => (v, true)

/-- One entry of a `promSeries.Values` array (`[]interface{}` in the JSON):
`arity` is the length of the encoded pair, `sec` the timestamp and `val` the
parsed magnitude.  The JSON/string parsing layer is abstracted: each entry
carries the values the Go loop would extract from it. -/
structure RawEntry where
  arity : ℕ
  sec : ℝ
  val : GoFloat

/-- The series-extraction loop shared by `fetchAllRPS` / `fetchAllErrorRate`:
entries whose encoded pair does not have exactly two fields are skipped
(`if len(v) != 2 { continue }`); otherwise the sanitized magnitude and the
timestamp are appended positionally (`if fv, ok := sane(f); ok { vals =
append(vals, fv) } else { vals = append(vals, 0) }`). -/
def extractSeries : List RawEntry → List ℝ × List ℝ
  | [] => ([], [])
  | e :: es =>
    let rest := extractSeries es
    if e.arity ≠ 2 then rest
    else ((if (sane e.val).2 then (sane e.val).1 else 0) :: rest.1, e.sec :: rest.2)

/-- Go `logAnomalyEvents`: one log line (event) per selected index that is in
range and whose score meets the threshold.  The result lists the indices whose
events are emitted, in emission order. -/
noncomputable def logAnomalyEvents (topIdx : List ℤ) (scores : List ℝ)
    (threshold : ℝ) : List ℤ :=
  match topIdx with
  | [] => []
  | i :: rest =>
    if 0 ≤ i ∧ i < (scores.length : ℤ) ∧ threshold ≤ scores.getD i.toNat 0 then
      i :: logAnomalyEvents rest scores threshold
    else logAnomalyEvents rest scores threshold

/-- Go `meanStd(x []float64) (float64, float64)`: `(0, 1)` for an empty slice,
otherwise the mean and the square root of the mean squared deviation. -/
noncomputable def meanStd (x : List ℝ) : ℝ × ℝ :=
  if x.length = 0 then (0, 1)
  else
    let mu := x.sum / (x.length : ℝ)
    let ss := (x.map (fun v => (v - mu) * (v - mu))).sum
    (mu, Real.sqrt (ss / (x.length : ℝ)))

/-- The mean of a series, as the spec states it. -/
noncomputable def listMean (x : List ℝ) : ℝ := x.sum / (x.length : ℝ)

/-- The population variance (mean squared deviation), as the spec states it. -/
noncomputable def popVar (x : List ℝ) : ℝ :=
  (x.map (fun v => (v - listMean x) ^ 2)).sum / (x.length : ℝ)

/-- The z-score normalization step at the top of `detectAnomalies`:
`norm[i] = (v - mu) / (sd + 1e-9)`. -/
noncomputable def normalizeSeries (vals : List ℝ) : List ℝ :=
  vals.map (fun v => (v - (meanStd vals).1) / ((meanStd vals).2 + 1 / 1000000000))

/-- The comparison used by `sort.Slice(idx, func(i, j) { return scores[idx[i]]
> scores[idx[j]] })`: index `i` may precede index `j` when `j`'s score does
not exceed `i`'s (the sorted order this comparator produces). -/
def scoreGE (s : List ℝ) (i j : ℕ) : Prop := s.getD j 0 ≤ s.getD i 0

noncomputable instance (s : List ℝ) : DecidableRel (scoreGE s) :=
  fun _ _ => Real.decidableLE _ _

instance (s : List ℝ) : IsTotal ℕ (scoreGE s) :=
  ⟨fun i j => le_total (s.getD j 0) (s.getD i 0)⟩

instance (s : List ℝ) : IsTrans ℕ (scoreGE s) :=
  ⟨fun _ _ _ h1 h2 => le_trans h2 h1⟩

/-- Go `detectAnomalies(vals []float64, k int) ([]int, []float64)`:
normalize, train a forest (`iforest.New(norm, 100, min(64, len(norm)))`),
score every point, sort the indices by descending score and return the first
`min(k, len(idx))` of them together with the full score vector.  The sort is
modelled by `List.insertionSort` with the comparator's order: Go's
`sort.Slice` produces some permutation of the indices that is sorted by the
comparator, which is all the properties proved below rely on.  `k : ℕ` since
`idx[:k]` panics for negative `k`. -/
noncomputable def detectAnomalies (vals : List ℝ) (k : ℕ) (g : ℕ → ℝ)
    (sample : ℕ → ℕ → ℕ) : List ℕ × List ℝ :=
  let norm := normalizeSeries vals
  let f := iforest.New norm 100 (min 64 (norm.length : ℤ)) g sample
  let scores := norm.map (iforest.Score f)
  let idx := List.insertionSort (scoreGE scores) (List.range norm.length)
  (idx.take (min k idx.length), scores)

end ifservice

/-! ### Lemmas about the isolation-forest engine -/

namespace iforest

theorem fitTree_eq_fuel (g : ℕ → ℝ) :
    ∀ (fuel : ℕ) (data : List ℝ) (depth maxDepth : ℤ) (n : ℕ),
      (maxDepth - depth).toNat < fuel →
      fitTreeFuel g fuel data depth maxDepth n = some (fitTree g data depth maxDepth n) := by
  intro fuel
  induction fuel with
  | zero => intro data depth maxDepth n h; omega
  | succ fuel ih =>
    intro data depth maxDepth n h
    rw [fitTree.eq_def, fitTreeFuel]
    by_cases h1 : maxDepth ≤ depth ∨ data.length ≤ 1
    · simp [h1]
    · simp only [h1, if_false]
      by_cases h2 : dataMin data = dataMax data
      · simp [h2]
      · simp only [h2, if_false]
        have hd : depth < maxDepth := by
          simp only [not_or, not_le] at h1; exact h1.1
        have hlt : (maxDepth - (depth + 1)).toNat < fuel := by omega
        rw [ih _ (depth + 1) maxDepth (n + 1) hlt]
        simp only [Option.some_bind]
        rw [ih _ (depth + 1) maxDepth _ hlt]
        simp only [Option.map_some']

theorem foldl_min_le_init (l : List ℝ) (a : ℝ) : l.foldl min a ≤ a := by
  induction l generalizing a with
  | nil => exact le_refl a
  | cons h t ih => exact le_trans (ih (min a h)) (min_le_left a h)

theorem foldl_min_le_mem (l : List ℝ) (a : ℝ) : ∀ v ∈ l, l.foldl min a ≤ v := by
  induction l generalizing a with
  | nil => intro v hv; cases hv
  | cons h t ih =>
    intro v hv
    rcases List.mem_cons.1 hv with rfl | hv
    · exact le_trans (foldl_min_le_init t (min a v)) (min_le_right a v)
    · exact ih (min a h) v hv

theorem foldl_min_eq_init_or_mem (l : List ℝ) (a : ℝ) :
    l.foldl min a = a ∨ l.foldl min a ∈ l := by
  induction l generalizing a with
  | nil => exact Or.inl rfl
  | cons h t ih =>
    rcases ih (min a h) with heq | hmem
    · rcases min_choice a h with hc | hc
      · exact Or.inl (by rw [List.foldl_cons, heq, hc])
      · exact Or.inr (by rw [List.foldl_cons, heq, hc]; exact List.mem_cons_self h t)
    · exact Or.inr (List.mem_cons_of_mem h hmem)

theorem init_le_foldl_max (l : List ℝ) (a : ℝ) : a ≤ l.foldl max a := by
  induction l generalizing a with
  | nil => exact le_refl a
  | cons h t ih => exact le_trans (le_max_left a h) (ih (max a h))

theorem mem_le_foldl_max (l : List ℝ) (a : ℝ) : ∀ v ∈ l, v ≤ l.foldl max a := by
  induction l generalizing a with
  | nil => intro v hv; cases hv
  | cons h t ih =>
    intro v hv
    rcases List.mem_cons.1 hv with rfl | hv
    · exact le_trans (le_max_right a v) (init_le_foldl_max t (max a v))
    · exact ih (max a h) v hv

theorem foldl_max_eq_init_or_mem (l : List ℝ) (a : ℝ) :
    l.foldl max a = a ∨ l.foldl max a ∈ l := by
  induction l generalizing a with
  | nil => exact Or.inl rfl
  | cons h t ih =>
    rcases ih (max a h) with heq | hmem
    · rcases max_choice a h with hc | hc
      · exact Or.inl (by rw [List.foldl_cons, heq, hc])
      · exact Or.inr (by rw [List.foldl_cons, heq, hc]; exact List.mem_cons_self h t)
    · exact Or.inr (List.mem_cons_of_mem h hmem)

theorem dataMin_le (data : List ℝ) : ∀ v ∈ data, dataMin data ≤ v :=
  foldl_min_le_mem data (data.headD 0)

theorem le_dataMax (data : List ℝ) : ∀ v ∈ data, v ≤ dataMax data :=
  mem_le_foldl_max data (data.headD 0)

theorem dataMin_le_dataMax (data : List ℝ) : dataMin data ≤ dataMax data :=
  le_trans (foldl_min_le_init data (data.headD 0))
    (init_le_foldl_max data (data.headD 0))

theorem dataMin_eq_of_const (data : List ℝ) (c : ℝ) (hne : data ≠ [])
    (h : ∀ v ∈ data, v = c) : dataMin data = c := by
  have hhead : data.headD 0 = c := by
    cases data with
    | nil => exact absurd rfl hne
    | cons a t => exact h a (List.mem_cons_self a t)
  rcases foldl_min_eq_init_or_mem data (data.headD 0) with heq | hmem
  · rw [dataMin, heq, hhead]
  · exact h _ hmem

theorem dataMax_eq_of_const (data : List ℝ) (c : ℝ) (hne : data ≠ [])
    (h : ∀ v ∈ data, v = c) : dataMax data = c := by
  have hhead : data.headD 0 = c := by
    cases data with
    | nil => exact absurd rfl hne
    | cons a t => exact h a (List.mem_cons_self a t)
  rcases foldl_max_eq_init_or_mem data (data.headD 0) with heq | hmem
  · rw [dataMax, heq, hhead]
  · exact h _ hmem

/-- A terminal-condition call: empty, singleton or constant data produces an
immediate leaf carrying the current depth and consumes no randomness. -/
theorem fitTree_const (g : ℕ → ℝ) (data : List ℝ) (depth maxDepth : ℤ) (n : ℕ)
    (c : ℝ) (h : ∀ v ∈ data, v = c) :
    fitTree g data depth maxDepth n = (Tree.leaf depth, n) := by
  rw [fitTree.eq_def]
  by_cases h1 : maxDepth ≤ depth ∨ data.length ≤ 1
  · simp [h1]
  · have hne : data ≠ [] := by
      intro hnil; rw [hnil] at h1; simp at h1
    have : dataMin data = dataMax data := by
      rw [dataMin_eq_of_const data c hne h, dataMax_eq_of_const data c hne h]
    simp [h1, this]

theorem fitTreeFuel_nodeDepths (g : ℕ → ℝ) :
    ∀ (fuel : ℕ) (data : List ℝ) (depth maxDepth : ℤ) (n : ℕ) (res : Tree × ℕ),
      fitTreeFuel g fuel data depth maxDepth n = some res → depth ≤ maxDepth →
      ∀ d ∈ nodeDepths res.1, depth ≤ d ∧ d ≤ maxDepth := by
  intro fuel
  induction fuel with
  | zero => intro data depth maxDepth n res hres; simp [fitTreeFuel] at hres
  | succ fuel ih =>
    intro data depth maxDepth n res hres hdm
    rw [fitTreeFuel] at hres
    by_cases h1 : maxDepth ≤ depth ∨ data.length ≤ 1
    · simp only [h1, if_true] at hres
      cases hres
      intro d hd
      simp [nodeDepths] at hd
      omega
    · simp only [h1, if_false] at hres
      by_cases h2 : dataMin data = dataMax data
      · simp only [h2, if_true] at hres
        cases hres
        intro d hd
        simp [nodeDepths] at hd
        omega
      · simp only [h2, if_false] at hres
        rcases Option.bind_eq_some.1 hres with ⟨res1, hres1, hres2⟩
        rcases Option.map_eq_some'.1 hres2 with ⟨res2, hres2', hres2''⟩
        have hd1 : depth + 1 ≤ maxDepth := by
          simp only [not_or, not_le] at h1; omega
        intro d hd
        rw [← hres2''] at hd
        simp only [nodeDepths, List.mem_cons, List.mem_append] at hd
        rcases hd with rfl | hd | hd
        · omega
        · have := ih _ (depth + 1) maxDepth (n + 1) res1 hres1 hd1 d hd
          omega
        · have := ih _ (depth + 1) maxDepth res1.2 res2 hres2' hd1 d hd
          omega

/-- Every depth stored in a tree built by `fitTree` lies between the entry
depth and `maxDepth`, provided the entry depth does not already exceed it. -/
theorem fitTree_nodeDepths (g : ℕ → ℝ) (data : List ℝ) (depth maxDepth : ℤ)
    (n : ℕ) (hdm : depth ≤ maxDepth) :
    ∀ d ∈ nodeDepths (fitTree g data depth maxDepth n).1,
      depth ≤ d ∧ d ≤ maxDepth := by
  have heq := fitTree_eq_fuel g ((maxDepth - depth).toNat + 1) data depth maxDepth n
    (by omega)
  exact fitTreeFuel_nodeDepths g _ data depth maxDepth n _ heq hdm

theorem pathLenTree_mem_nodeDepths (t : Tree) (x : ℝ) :
    pathLenTree t x ∈ nodeDepths t := by
  induction t with
  | leaf d => simp [pathLenTree, nodeDepths]
  | node s l r d ihl ihr =>
    simp only [pathLenTree, nodeDepths, List.mem_cons, List.mem_append]
    by_cases hx : x < s
    · simp only [hx, if_true]; exact Or.inr (Or.inl ihl)
    · simp only [hx, if_false]; exact Or.inr (Or.inr ihr)

/-- Descending any tree built by `fitTree` at a non-negative entry depth
reaches a leaf of non-negative stored depth bounded by `maxDepth`. -/
theorem fitTree_pathLen_bounds (g : ℕ → ℝ) (data : List ℝ) (depth maxDepth : ℤ)
    (n : ℕ) (hdm : depth ≤ maxDepth) (x : ℝ) :
    depth ≤ pathLenTree (fitTree g data depth maxDepth n).1 x ∧
      pathLenTree (fitTree g data depth maxDepth n).1 x ≤ maxDepth :=
  fitTree_nodeDepths g data depth maxDepth n hdm _
    (pathLenTree_mem_nodeDepths _ x)

theorem harmonicSum_succ (m : ℕ) :
    harmonicSum (m + 1) = harmonicSum m + 1 / ((m : ℝ) + 1) := by
  simp [harmonicSum, List.range_succ]

theorem harmonicSum_nonneg (m : ℕ) : 0 ≤ harmonicSum m := by
  induction m with
  | zero => simp [harmonicSum]
  | succ k ih =>
    rw [harmonicSum_succ]
    have : 0 < ((k : ℝ) + 1) := by positivity
    positivity

theorem one_le_harmonicSum (m : ℕ) (hm : 1 ≤ m) : 1 ≤ harmonicSum m := by
  induction m with
  | zero => omega
  | succ k ih =>
    rcases Nat.eq_zero_or_pos k with rfl | hk
    · have h0 : harmonicSum 0 = 0 := by simp [harmonicSum]
      rw [harmonicSum_succ, h0]
      norm_num
    · rw [harmonicSum_succ]
      have h1 : (1 : ℝ) ≤ harmonicSum k := ih hk
      have h2 : 0 < 1 / ((k : ℝ) + 1) := by positivity
      linarith

theorem averagePathLength_pos (p : ℤ) (hp : 2 ≤ p) :
    0 < averagePathLength p := by
  rw [averagePathLength, if_neg (by omega)]
  have hp0 : (0 : ℝ) < (p : ℝ) := by exact_mod_cast (by omega : (0:ℤ) < p)
  have h1 : (1 : ℝ) ≤ harmonicSum (p - 1).toNat :=
    one_le_harmonicSum _ (by omega)
  have h2 : ((p : ℝ) - 1) / (p : ℝ) < 1 := by
    rw [div_lt_one hp0]; linarith
  have h3 : 2 * ((p : ℝ) - 1) / (p : ℝ) = 2 * (((p : ℝ) - 1) / (p : ℝ)) := by
    ring
  rw [h3]
  linarith

theorem averagePathLength_nonneg (p : ℤ) : 0 ≤ averagePathLength p := by
  by_cases hp : p ≤ 1
  · rw [averagePathLength, if_pos hp]
  · exact le_of_lt (averagePathLength_pos p (by omega))

theorem averagePathLength_eq_zero_iff (p : ℤ) :
    averagePathLength p = 0 ↔ p ≤ 1 := by
  constructor
  · intro h
    by_contra hp
    exact absurd h (ne_of_gt (averagePathLength_pos p (by omega)))
  · intro h; rw [averagePathLength, if_pos h]

theorem clampPsi_le (psi : ℤ) (n : ℕ) : clampPsi psi n ≤ n := by
  rw [clampPsi]; split <;> omega

theorem clampPsi_pos (psi : ℤ) (n : ℕ) (hn : 1 ≤ n) : 1 ≤ clampPsi psi n := by
  rw [clampPsi]; split <;> omega

theorem clampPsi_nonneg (psi : ℤ) (n : ℕ) : 0 ≤ clampPsi psi n := by
  rw [clampPsi]; split <;> omega

/-- For a positive clamped subsample size, the `maxDepth` the Go code computes
agrees with the spec's `ceil(log2(ψ))` (with `0` at `ψ = 1`), and it is
non-negative. -/
theorem maxDepthGo_eq_spec (p : ℤ) (hp : 1 ≤ p) :
    maxDepthGo p = maxDepthSpec p ∧ 0 ≤ maxDepthGo p := by
  rw [maxDepthGo, maxDepthSpec, if_neg (by omega)]
  by_cases h : p ≤ 1
  · have : p = 1 := by omega
    subst this
    norm_num [Nat.clog]
  · rw [if_neg h]
    constructor
    · rfl
    · positivity

theorem maxDepthGo_pos (p : ℤ) (hp : 2 ≤ p) : 1 ≤ maxDepthGo p := by
  rw [maxDepthGo, if_neg (by omega)]
  have h2 : 0 < Nat.clog 2 p.toNat :=
    Nat.clog_pos (by omega) (by omega)
  exact_mod_cast h2

/-- Every tree of a forest built by `New` is the result of `fitTree` on the
subsample drawn for some tree index, at depth `0` and the computed
`maxDepth`. -/
theorem buildTrees_mem (g : ℕ → ℝ) (sample : ℕ → ℕ → ℕ) (data : List ℝ)
    (psiN : ℕ) (maxD : ℤ) :
    ∀ (is : List ℕ) (n : ℕ) (tr : Tree),
      tr ∈ (buildTrees g sample data psiN maxD is n).1 →
      ∃ i m, i ∈ is ∧
        tr = (fitTree g ((List.range psiN).map (fun j => data.getD (sample i j) 0))
          0 maxD m).1 := by
  intro is
  induction is with
  | nil => intro n tr htr; simp [buildTrees] at htr
  | cons i is ih =>
    intro n tr htr
    simp only [buildTrees, List.mem_cons] at htr
    rcases htr with rfl | htr
    · exact ⟨i, n, List.mem_cons_self i is, rfl⟩
    · rcases ih _ tr htr with ⟨i', m, hi', htr'⟩
      exact ⟨i', m, List.mem_cons_of_mem i hi', htr'⟩

theorem New_trees_mem (data : List ℝ) (t : ℕ) (psi0 : ℤ) (g : ℕ → ℝ)
    (sample : ℕ → ℕ → ℕ) :
    ∀ tr ∈ (New data t psi0 g sample).trees,
      ∃ i m, tr = (fitTree g
        ((List.range (clampPsi psi0 data.length).toNat).map
          (fun j => data.getD (sample i j) 0))
        0 (maxDepthGo (clampPsi psi0 data.length)) m).1 := by
  intro tr htr
  rcases buildTrees_mem g sample data _ _ _ _ tr htr with ⟨i, m, _, htr'⟩
  exact ⟨i, m, htr'⟩

theorem buildTrees_length (g : ℕ → ℝ) (sample : ℕ → ℕ → ℕ) (data : List ℝ)
    (psiN : ℕ) (maxD : ℤ) :
    ∀ (is : List ℕ) (n : ℕ),
      (buildTrees g sample data psiN maxD is n).1.length = is.length := by
  intro is
  induction is with
  | nil => intro n; simp [buildTrees]
  | cons i is ih => intro n; simp [buildTrees, ih]

theorem New_trees_length (data : List ℝ) (t : ℕ) (psi0 : ℤ) (g : ℕ → ℝ)
    (sample : ℕ → ℕ → ℕ) : (New data t psi0 g sample).trees.length = t := by
  rw [New]
  simp [buildTrees_length]

theorem New_c (data : List ℝ) (t : ℕ) (psi0 : ℤ) (g : ℕ → ℝ)
    (sample : ℕ → ℕ → ℕ) :
    (New data t psi0 g sample).c = averagePathLength (clampPsi psi0 data.length) :=
  rfl

/-- Each bootstrap slot `data[rand.Intn(len(data))]` is an element of `data`,
so a constant series yields constant subsamples. -/
theorem subsample_const (data : List ℝ) (c : ℝ) (sample : ℕ → ℕ → ℕ)
    (psiN : ℕ) (i : ℕ) (hc : ∀ v ∈ data, v = c)
    (hs : ∀ i j, sample i j < data.length) :
    ∀ v ∈ (List.range psiN).map (fun j => data.getD (sample i j) 0), v = c := by
  intro v hv
  rcases List.mem_map.1 hv with ⟨j, _, rfl⟩
  have hj := hs i j
  rw [List.getD_eq_getElem data 0 hj]
  exact hc _ (List.getElem_mem hj)

theorem New_trees_leaf_of_const (data : List ℝ) (c : ℝ) (t : ℕ) (psi0 : ℤ)
    (g : ℕ → ℝ) (sample : ℕ → ℕ → ℕ) (hc : ∀ v ∈ data, v = c)
    (hs : ∀ i j, sample i j < data.length) :
    ∀ tr ∈ (New data t psi0 g sample).trees, tr = Tree.leaf 0 := by
  intro tr htr
  rcases New_trees_mem data t psi0 g sample tr htr with ⟨i, m, htr'⟩
  rw [htr', fitTree_const g _ 0 _ m c (subsample_const data c sample _ i hc hs)]

theorem pathLenTree_leaf (d : ℤ) (x : ℝ) : pathLenTree (Tree.leaf d) x = d := rfl

theorem pathLength_eq_zero_of_leaves (f : Forest) (x : ℝ)
    (h : ∀ tr ∈ f.trees, tr = Tree.leaf 0) : pathLength f x = 0 := by
  rw [pathLength]
  have : (f.trees.map (fun t => ((pathLenTree t x : ℤ) : ℝ))).sum = 0 := by
    apply List.sum_eq_zero
    intro y hy
    rcases List.mem_map.1 hy with ⟨tr, htr, rfl⟩
    rw [h tr htr, pathLenTree_leaf]
    norm_num
  rw [this, zero_div]

/-- For a non-empty series, every path length in a forest built by `New` is
non-negative (every leaf stores a depth between `0` and `maxDepth`). -/
theorem pathLength_nonneg_of_ne_nil (data : List ℝ) (t : ℕ) (psi0 : ℤ)
    (g : ℕ → ℝ) (sample : ℕ → ℕ → ℕ) (hne : data ≠ []) (x : ℝ) :
    0 ≤ pathLength (New data t psi0 g sample) x := by
  have hn : 1 ≤ data.length := by
    cases data with
    | nil => exact absurd rfl hne
    | cons a l => simp
  have hpsi : 1 ≤ clampPsi psi0 data.length := clampPsi_pos psi0 data.length hn
  have hmd : 0 ≤ maxDepthGo (clampPsi psi0 data.length) :=
    (maxDepthGo_eq_spec _ hpsi).2
  rw [pathLength]
  apply div_nonneg
  · apply List.sum_nonneg
    intro y hy
    rcases List.mem_map.1 hy with ⟨tr, htr, rfl⟩
    rcases New_trees_mem data t psi0 g sample tr htr with ⟨i, m, rfl⟩
    have := (fitTree_pathLen_bounds g
      ((List.range (clampPsi psi0 data.length).toNat).map
        (fun j => data.getD (sample i j) 0))
      0 (maxDepthGo (clampPsi psi0 data.length)) m hmd x).1
    exact_mod_cast this
  · positivity

theorem clampPsi_nil (psi0 : ℤ) : clampPsi psi0 0 = 0 := by
  rw [clampPsi]; split <;> omega

/-- Forest construction on empty data: the subsample loop never runs
(`psi = 0`), no sample is drawn, and every tree is an immediate depth-0
leaf — regardless of the random sources. -/
theorem New_nil_trees (t : ℕ) (psi0 : ℤ) (g : ℕ → ℝ) (sample : ℕ → ℕ → ℕ) :
    (New ([] : List ℝ) t psi0 g sample).trees = List.replicate t (Tree.leaf 0) := by
  rw [New]
  simp only [List.length_nil, clampPsi_nil, Int.toNat_zero]
  have hfit : ∀ (maxD : ℤ) (is : List ℕ) (n : ℕ),
      (buildTrees g sample [] 0 maxD is n) = (List.replicate is.length (Tree.leaf 0), n) := by
    intro maxD is
    induction is with
    | nil => intro n; simp [buildTrees]
    | cons i is ih =>
      intro n
      rw [buildTrees]
      simp only [List.range_zero, List.map_nil]
      rw [fitTree_const g [] 0 maxD n 0 (by intro v hv; cases hv)]
      simp [ih, List.replicate_succ]
  rw [hfit]
  simp

theorem harmonicSum_eq_finset (m : ℕ) :
    harmonicSum m = ∑ i ∈ Finset.range m, 1 / ((i : ℝ) + 1) := by
  induction m with
  | zero => simp [harmonicSum]
  | succ k ih => rw [harmonicSum_succ, ih, Finset.sum_range_succ]

theorem harmonicSum_one : harmonicSum 1 = 1 := by
  have h0 : harmonicSum 0 = 0 := by simp [harmonicSum]
  rw [harmonicSum_succ, h0]
  norm_num

/-- Claim C6: `averagePathLength(n) = 0` for every `n ≤ 1`,
`averagePathLength(2) = 1`, for every `n ≥ 2` the value is
`2·H(n−1) − 2(n−1)/n` with `H(m) = Σ_{i=1}^{m} 1/i`, and the forest's
normalization constant `C` is `averagePathLength` of the clamped subsample
size. -/
theorem c6_average_path_length :
    (∀ n : ℤ, n ≤ 1 → averagePathLength n = 0) ∧
    averagePathLength 2 = 1 ∧
    (∀ n : ℤ, 2 ≤ n →
      averagePathLength n =
        2 * (∑ i ∈ Finset.range (n - 1).toNat, 1 / ((i : ℝ) + 1)) -
          2 * ((n : ℝ) - 1) / (n : ℝ)) ∧
    (∀ (data : List ℝ) (t : ℕ) (psi0 : ℤ) (g : ℕ → ℝ) (sample : ℕ → ℕ → ℕ),
      (New data t psi0 g sample).c = averagePathLength (clampPsi psi0 data.length)) := by
  refine ⟨?_, ?_, ?_, ?_⟩
  · intro n hn; rw [averagePathLength, if_pos hn]
  · rw [averagePathLength, if_neg (by omega)]
    have : ((2 : ℤ) - 1).toNat = 1 := by decide
    rw [this, harmonicSum_one]
    norm_num
  · intro n hn
    rw [averagePathLength, if_neg (by omega), harmonicSum_eq_finset]
  · intro data t psi0 g sample
    exact New_c data t psi0 g sample

theorem c6_average_path_length_witness :
    averagePathLength (0 : ℤ) = 0 ∧
    averagePathLength (3 : ℤ) =
      2 * (∑ i ∈ Finset.range ((3 : ℤ) - 1).toNat, 1 / ((i : ℝ) + 1)) -
        2 * (((3 : ℤ) : ℝ) - 1) / ((3 : ℤ) : ℝ) :=
  ⟨c6_average_path_length.1 0 (by decide),
   c6_average_path_length.2.2.1 3 (by decide)⟩

/-- Claim C7: for every non-empty data series and parameters `(t, ψ)`, the
depth of every node of every tree built by `New` never exceeds
`max_depth = ceil(log2(ψ_clamped))` (`0` when `ψ_clamped ≤ 1`), and a node
given an empty, singleton, or constant-valued subsample is a leaf. -/
theorem c7_depth_invariant (data : List ℝ) (t : ℕ) (psi0 : ℤ) (g : ℕ → ℝ)
    (sample : ℕ → ℕ → ℕ) (hne : data ≠ []) :
    (∀ tr ∈ (New data t psi0 g sample).trees, ∀ d ∈ nodeDepths tr,
        d ≤ maxDepthSpec (clampPsi psi0 data.length)) ∧
    (∀ (sub : List ℝ) (depth maxD : ℤ) (n : ℕ),
        (sub = [] ∨ sub.length = 1 ∨ ∀ v ∈ sub, ∀ w ∈ sub, v = w) →
        fitTree g sub depth maxD n = (Tree.leaf depth, n)) := by
  have hn : 1 ≤ data.length := by
    cases data with
    | nil => exact absurd rfl hne
    | cons a l => simp
  have hpsi : 1 ≤ clampPsi psi0 data.length := clampPsi_pos psi0 data.length hn
  rcases maxDepthGo_eq_spec _ hpsi with ⟨hspec, hmd⟩
  constructor
  · intro tr htr d hd
    rcases New_trees_mem data t psi0 g sample tr htr with ⟨i, m, rfl⟩
    have := fitTree_nodeDepths g _ 0 _ m hmd d hd
    omega
  · intro sub depth maxD n hsub
    rcases hsub with rfl | hlen | hconst
    · exact fitTree_const g [] depth maxD n 0 (by intro v hv; cases hv)
    · rcases List.length_eq_one.1 hlen with ⟨a, rfl⟩
      exact fitTree_const g [a] depth maxD n a (by intro v hv; simpa using hv)
    · by_cases hnil : sub = []
      · subst hnil
        exact fitTree_const g [] depth maxD n 0 (by intro v hv; cases hv)
      · have hhead : sub.headD 0 ∈ sub := by
          cases sub with
          | nil => exact absurd rfl hnil
          | cons a l => simp
        exact fitTree_const g sub depth maxD n (sub.headD 0)
          (fun v hv => hconst v hv _ hhead)

theorem c7_depth_invariant_witness :
    fitTree (fun _ => (0 : ℝ)) [] 0 5 3 = (Tree.leaf 0, 3) :=
  (c7_depth_invariant [1, 2] 1 2 (fun _ => (0 : ℝ)) (fun _ _ => 0)
    (by simp)).2 [] 0 5 3 (Or.inl rfl)

/-- Claim C10: `fitTree` terminates on every input: the recursion is bounded
by the depth budget alone — with any fuel exceeding `maxDepth - depth` the
fuel-indexed unfolding already finishes (`some` result), for every data slice
(including the case where a chosen split equals the subsample minimum, making
one partition empty and the other full), and the recursion stops as soon as
`depth ≥ maxDepth`. -/
theorem c10_fit_tree_terminates (g : ℕ → ℝ) (data : List ℝ)
    (depth maxDepth : ℤ) (n : ℕ) (fuel : ℕ)
    (hfuel : (maxDepth - depth).toNat < fuel) :
    fitTreeFuel g fuel data depth maxDepth n =
      some (fitTree g data depth maxDepth n) ∧
    (maxDepth ≤ depth → fitTree g data depth maxDepth n = (Tree.leaf depth, n)) := by
  constructor
  · exact fitTree_eq_fuel g fuel data depth maxDepth n hfuel
  · intro h
    rw [fitTree.eq_def]
    simp [h]

theorem c10_fit_tree_terminates_witness :
    fitTreeFuel (fun _ => (0 : ℝ)) 3 [0, 1] 0 1 0 =
      some (fitTree (fun _ => (0 : ℝ)) [0, 1] 0 1 0) :=
  (c10_fit_tree_terminates (fun _ => (0 : ℝ)) [0, 1] 0 1 0 3 (by decide)).1

/-- Claim C1: for a constant-valued series (so every bootstrap subsample is
constant), with at least one tree, every tree is an immediate depth-0 leaf,
the path length of every point is 0, and (when the clamped subsample size is
at least 2, so `C(ψ) ≠ 0`) the score of every point is `2^(−0/C) = 1`;
a single-point series likewise never errors and scores 0 (its `C` is 0). -/
theorem c1_constant_series (data : List ℝ) (c : ℝ) (t : ℕ) (psi0 : ℤ)
    (g : ℕ → ℝ) (sample : ℕ → ℕ → ℕ) (x : ℝ)
    (hc : ∀ v ∈ data, v = c) (hs : ∀ i j, sample i j < data.length)
    (ht : 0 < t) :
    (∀ tr ∈ (New data t psi0 g sample).trees, tr = Tree.leaf 0) ∧
    pathLength (New data t psi0 g sample) x = 0 ∧
    (2 ≤ clampPsi psi0 data.length →
      Score (New data t psi0 g sample) x =
        (2 : ℝ) ^ (-(0 : ℝ) / (New data t psi0 g sample).c) ∧
      Score (New data t psi0 g sample) x = 1) ∧
    (data.length = 1 → Score (New data t psi0 g sample) x = 0) := by
  have hleaves := New_trees_leaf_of_const data c t psi0 g sample hc hs
  have hpath := pathLength_eq_zero_of_leaves (New data t psi0 g sample) x hleaves
  refine ⟨hleaves, hpath, ?_, ?_⟩
  · intro hpsi
    have hcpos : 0 < (New data t psi0 g sample).c := by
      rw [New_c]; exact averagePathLength_pos _ hpsi
    have hc0 : (New data t psi0 g sample).c ≠ 0 := ne_of_gt hcpos
    constructor
    · rw [Score, if_neg hc0, hpath]
    · rw [Score, if_neg hc0, hpath]
      norm_num
  · intro hlen
    have hpsi1 : clampPsi psi0 data.length = 1 := by
      have h1 := clampPsi_pos psi0 data.length (by omega)
      have h2 := clampPsi_le psi0 data.length
      omega
    have hc0 : (New data t psi0 g sample).c = 0 := by
      rw [New_c, hpsi1]
      exact (averagePathLength_eq_zero_iff 1).2 (by omega)
    rw [Score, if_pos hc0]

theorem c1_constant_series_witness :
    (∀ tr ∈ (New [5, 5] 1 2 (fun _ => (0 : ℝ)) (fun _ _ => 0)).trees,
      tr = Tree.leaf 0) ∧
    Score (New [5, 5] 1 2 (fun _ => (0 : ℝ)) (fun _ _ => 0)) 3 = 1 := by
  have h := c1_constant_series [5, 5] 5 1 2 (fun _ => (0 : ℝ)) (fun _ _ => 0) 3
    (by intro v hv; simp at hv; exact hv)
    (by intro i j; simp) (by norm_num)
  exact ⟨h.1, (h.2.2.1 (by decide)).2⟩

/-- Claim C5: for every forest built by `New` (with at least one tree) and
every real `x`, the score lies in `[0,1]`; it is `0` exactly when the
normalization constant `C(ψ)` is `0` (equivalently `ψ_clamped ≤ 1`), and
otherwise equals `2^(−path_length/C)`, which is positive. -/
theorem c5_score_range (data : List ℝ) (t : ℕ) (psi0 : ℤ) (g : ℕ → ℝ)
    (sample : ℕ → ℕ → ℕ) (x : ℝ) (ht : 0 < t) :
    (0 ≤ Score (New data t psi0 g sample) x ∧
      Score (New data t psi0 g sample) x ≤ 1) ∧
    (Score (New data t psi0 g sample) x = 0 ↔ (New data t psi0 g sample).c = 0) ∧
    ((New data t psi0 g sample).c = 0 ↔ clampPsi psi0 data.length ≤ 1) ∧
    ((New data t psi0 g sample).c ≠ 0 →
      Score (New data t psi0 g sample) x =
        (2 : ℝ) ^ (-(pathLength (New data t psi0 g sample) x) /
          (New data t psi0 g sample).c) ∧
      0 < Score (New data t psi0 g sample) x) := by
  have hciff : (New data t psi0 g sample).c = 0 ↔ clampPsi psi0 data.length ≤ 1 := by
    rw [New_c]; exact averagePathLength_eq_zero_iff _
  by_cases hc0 : (New data t psi0 g sample).c = 0
  · rw [Score, if_pos hc0]
    refine ⟨⟨le_refl 0, by norm_num⟩, by simp [hc0], hciff, ?_⟩
    intro h; exact absurd hc0 h
  · have hpsi2 : 2 ≤ clampPsi psi0 data.length := by
      rcases lt_or_le (clampPsi psi0 data.length) 2 with h | h
      · exact absurd (hciff.2 (by omega)) hc0
      · exact h
    have hne : data ≠ [] := by
      intro hnil
      subst hnil
      have h := clampPsi_le psi0 (0 : ℕ)
      simp only [List.length_nil] at hpsi2
      omega
    have hcpos : 0 < (New data t psi0 g sample).c := by
      rw [New_c]; exact averagePathLength_pos _ hpsi2
    have hpl : 0 ≤ pathLength (New data t psi0 g sample) x :=
      pathLength_nonneg_of_ne_nil data t psi0 g sample hne x
    have hexp : -(pathLength (New data t psi0 g sample) x) /
        (New data t psi0 g sample).c ≤ 0 := by
      apply div_nonpos_of_nonpos_of_nonneg
      · linarith
      · linarith
    have hspos : (0 : ℝ) <
        (2 : ℝ) ^ (-(pathLength (New data t psi0 g sample) x) /
          (New data t psi0 g sample).c) :=
      Real.rpow_pos_of_pos (by norm_num) _
    have hsle : (2 : ℝ) ^ (-(pathLength (New data t psi0 g sample) x) /
        (New data t psi0 g sample).c) ≤ 1 :=
      Real.rpow_le_one_of_one_le_of_nonpos (by norm_num) hexp
    rw [Score, if_neg hc0]
    refine ⟨⟨le_of_lt hspos, hsle⟩, ?_, hciff, fun _ => ⟨rfl, hspos⟩⟩
    constructor
    · intro h; exact absurd h (ne_of_gt hspos)
    · intro h; exact absurd h hc0

theorem c5_score_range_witness :
    0 ≤ Score (New [1, 2] 1 2 (fun _ => (0 : ℝ)) (fun _ _ => 0)) 0 ∧
    Score (New [1, 2] 1 2 (fun _ => (0 : ℝ)) (fun _ _ => 0)) 0 ≤ 1 :=
  (c5_score_range [1, 2] 1 2 (fun _ => (0 : ℝ)) (fun _ _ => 0) 0 (by norm_num)).1

theorem dataMin_pair_01 : dataMin [(0 : ℝ), 1] = 0 := by
  rw [dataMin]
  simp only [List.headD_cons, List.foldl_cons, List.foldl_nil]
  rw [min_self, min_eq_left (by norm_num)]

theorem dataMax_pair_01 : dataMax [(0 : ℝ), 1] = 1 := by
  rw [dataMax]
  simp only [List.headD_cons, List.foldl_cons, List.foldl_nil]
  rw [max_self, max_eq_right (by norm_num)]

/-- Claim C3 counterexample: on the subsample `[0, 1]` (minimum 0, maximum 1)
with the `rand.Float64()` outcome `0`, the chosen split threshold is `0`,
which equals the subsample minimum — not strictly inside the open interval
`(min, max)` as the claim states. -/
theorem c3_split_at_min_counterexample :
    (fitTree (fun _ => (0 : ℝ)) [0, 1] 0 1 0).1 =
      Tree.node 0 (Tree.leaf 1) (Tree.leaf 1) 0 ∧
    dataMin [(0 : ℝ), 1] = 0 ∧
    rootSplit (fitTree (fun _ => (0 : ℝ)) [0, 1] 0 1 0).1 =
      some (dataMin [(0 : ℝ), 1]) := by
  have heval : fitTreeFuel (fun _ => (0 : ℝ)) 2 [0, 1] 0 1 0 =
      some (Tree.node 0 (Tree.leaf 1) (Tree.leaf 1) 0, 1) := by
    rw [fitTreeFuel]
    rw [if_neg (by simp)]
    rw [dataMin_pair_01, dataMax_pair_01]
    rw [if_neg (by norm_num)]
    have hsplit : (0 : ℝ) + 0 * (1 - 0) = 0 := by norm_num
    have hleft : List.filter (fun v => decide (v < (0 : ℝ))) [0, 1] = [] := by
      simp only [List.filter_eq_nil_iff]
      intro a ha
      simp at ha
      rcases ha with rfl | rfl <;> simp
    have hright : List.filter (fun v => ! decide (v < (0 : ℝ))) [0, 1] = [0, 1] := by
      simp only [List.filter_eq_self]
      intro a ha
      simp at ha
      rcases ha with rfl | rfl <;> simp
    simp only [hsplit, hleft, hright]
    rw [fitTreeFuel, if_pos (by norm_num)]
    simp only [Option.some_bind]
    rw [fitTreeFuel, if_pos (by norm_num)]
    simp only [Option.map_some']
    norm_num
  have hbridge := fitTree_eq_fuel (fun _ => (0 : ℝ)) 2 [0, 1] 0 1 0 (by decide)
  rw [heval] at hbridge
  have htree : (fitTree (fun _ => (0 : ℝ)) [0, 1] 0 1 0) =
      (Tree.node 0 (Tree.leaf 1) (Tree.leaf 1) 0, 1) := by
    exact (Option.some.inj hbridge).symm
  refine ⟨by rw [htree], dataMin_pair_01, ?_⟩
  rw [htree, dataMin_pair_01]
  rfl

/-- Claim C3 (amended): whenever `fitTree` draws a split (the depth guard
passed and the node subsample has `min ≠ max`), the chosen threshold
`min + r·(max − min)` with `r = rand.Float64() ∈ [0, 1)` lies in the
half-open interval `[min, max)`: at least the subsample minimum (equality
possible, at `r = 0`) and strictly below the maximum.  The statement
quantifies over every call, hence covers every internal node of every
constructed tree. -/
theorem c3_split_in_half_open_range (g : ℕ → ℝ) (data : List ℝ)
    (depth maxD : ℤ) (n : ℕ) (hg0 : 0 ≤ g n) (hg1 : g n < 1)
    (hguard : ¬(maxD ≤ depth ∨ data.length ≤ 1))
    (hrange : dataMin data ≠ dataMax data) :
    rootSplit (fitTree g data depth maxD n).1 =
      some (dataMin data + g n * (dataMax data - dataMin data)) ∧
    ∀ s, rootSplit (fitTree g data depth maxD n).1 = some s →
      dataMin data ≤ s ∧ s < dataMax data := by
  have hlt : dataMin data < dataMax data :=
    lt_of_le_of_ne (dataMin_le_dataMax data) hrange
  have hroot : rootSplit (fitTree g data depth maxD n).1 =
      some (dataMin data + g n * (dataMax data - dataMin data)) := by
    rw [fitTree.eq_def]
    rw [if_neg hguard, if_neg hrange]
    rfl
  refine ⟨hroot, ?_⟩
  intro s hs
  rw [hroot] at hs
  have hseq : s = dataMin data + g n * (dataMax data - dataMin data) :=
    (Option.some.inj hs).symm
  subst hseq
  constructor
  · have : 0 ≤ g n * (dataMax data - dataMin data) :=
      mul_nonneg hg0 (by linarith)
    linarith
  · have hd : 0 < dataMax data - dataMin data := by linarith
    have : g n * (dataMax data - dataMin data) <
        1 * (dataMax data - dataMin data) :=
      mul_lt_mul_of_pos_right hg1 hd
    linarith

theorem c3_split_in_half_open_range_witness :
    rootSplit (fitTree (fun _ => (1 / 2 : ℝ)) [0, 1] 0 1 0).1 =
      some (dataMin [(0 : ℝ), 1] +
        (fun _ => (1 / 2 : ℝ)) 0 * (dataMax [(0 : ℝ), 1] - dataMin [(0 : ℝ), 1])) :=
  (c3_split_in_half_open_range (fun _ => (1 / 2 : ℝ)) [0, 1] 0 1 0
    (by norm_num) (by norm_num) (by simp)
    (by rw [dataMin_pair_01, dataMax_pair_01]; norm_num)).1

end iforest

/-! ### Lemmas about the detection service -/

namespace ifservice

/-- In the extraction loop, the value appended is always `(sane f).1`:
the `ok` branch appends the sanitized value itself, the other branch appends
`0`, which is what `sane` returns for invalid magnitudes. -/
theorem sane_if_eq (gf : GoFloat) :
    (if (sane gf).2 then (sane gf).1 else 0) = (sane gf).1 := by
  cases gf <;> simp [sane]

theorem extractSeries_cons (e : RawEntry) (es : List RawEntry) :
    extractSeries (e :: es) =
      if e.arity ≠ 2 then extractSeries es
      else ((if (sane e.val).2 then (sane e.val).1 else 0) :: (extractSeries es).1,
            e.sec :: (extractSeries es).2) :=
  rfl

theorem extractSeries_eq (es : List RawEntry) :
    (extractSeries es).1 =
      (es.filter (fun e => decide (e.arity = 2))).map (fun e => (sane e.val).1) ∧
    (extractSeries es).2 =
      (es.filter (fun e => decide (e.arity = 2))).map (fun e => e.sec) := by
  induction es with
  | nil => exact ⟨rfl, rfl⟩
  | cons e es ih =>
    rw [extractSeries_cons]
    by_cases h : e.arity = 2
    · rw [if_neg (by simp [h])]
      constructor
      · simp [List.filter_cons, h, sane_if_eq, ih.1]
      · simp [List.filter_cons, h, ih.2]
    · rw [if_pos h]
      constructor
      · simp [List.filter_cons, h, ih.1]
      · simp [List.filter_cons, h, ih.2]

theorem countP_split (es : List RawEntry) :
    es.countP (fun e => decide (e.arity = 2)) =
      es.length - es.countP (fun e => decide (e.arity ≠ 2)) := by
  simp only [ne_eq, decide_not]
  induction es with
  | nil => simp
  | cons e es ih =>
    have hc := List.countP_le_length
      (p := fun e : RawEntry => !decide (e.arity = 2)) (l := es)
    by_cases h : e.arity = 2 <;>
      simp [List.countP_cons, h, ih] <;> omega

/-- Claim C8: `sane` maps NaN and both infinities to `(0, false)` and every
finite value to itself tagged valid; series extraction keeps exactly the
well-formed pairs (one sanitized value and its timestamp each, positionally)
and skips malformed pairs, so the sanitized length is the input length minus
the malformed-pair count. -/
theorem c8_sanitizer :
    sane GoFloat.nan = (0, false) ∧
    sane GoFloat.posInf = (0, false) ∧
    sane GoFloat.negInf = (0, false) ∧
    (∀ v : ℝ, sane (GoFloat.finite v) = (v, true)) ∧
    sane (GoFloat.finite (7 / 2)) = (7 / 2, true) ∧
    (∀ es : List RawEntry,
      (extractSeries es).1 =
        (es.filter (fun e => decide (e.arity = 2))).map (fun e => (sane e.val).1) ∧
      (extractSeries es).2 =
        (es.filter (fun e => decide (e.arity = 2))).map (fun e => e.sec) ∧
      (extractSeries es).1.length =
        es.length - es.countP (fun e => decide (e.arity ≠ 2)) ∧
      (extractSeries es).1.length = (extractSeries es).2.length) := by
  refine ⟨rfl, rfl, rfl, fun v => rfl, rfl, ?_⟩
  intro es
  rcases extractSeries_eq es with ⟨h1, h2⟩
  refine ⟨h1, h2, ?_, ?_⟩
  · rw [h1, List.length_map, ← List.countP_eq_length_filter, countP_split]
  · rw [h1, h2, List.length_map, List.length_map]

theorem logAnomalyEvents_filter (topIdx : List ℤ) (scores : List ℝ)
    (threshold : ℝ) :
    logAnomalyEvents topIdx scores threshold =
      topIdx.filter (fun i =>
        decide (0 ≤ i ∧ i < (scores.length : ℤ) ∧ threshold ≤ scores.getD i.toNat 0)) := by
  induction topIdx with
  | nil => rfl
  | cons i rest ih =>
    rw [logAnomalyEvents]
    by_cases h : 0 ≤ i ∧ i < (scores.length : ℤ) ∧ threshold ≤ scores.getD i.toNat 0
    · rw [if_pos h, List.filter_cons, if_pos (by simpa using h), ih]
    · rw [if_neg h, List.filter_cons, if_neg (by simpa using h), ih]

/-- Claim C9: the event reporter emits exactly one event per selected
in-range index whose score meets the threshold and none for indices below
it; with threshold `0.6`, scores `[0.9, 0.3, 0.7]` and top indices
`[0, 2, 1]`, exactly two events fire (indices 0 and 2). -/
theorem c9_event_reporter :
    (∀ (topIdx : List ℤ) (scores : List ℝ) (threshold : ℝ),
      logAnomalyEvents topIdx scores threshold =
        topIdx.filter (fun i =>
          decide (0 ≤ i ∧ i < (scores.length : ℤ) ∧
            threshold ≤ scores.getD i.toNat 0)) ∧
      (logAnomalyEvents topIdx scores threshold).length =
        topIdx.countP (fun i =>
          decide (0 ≤ i ∧ i < (scores.length : ℤ) ∧
            threshold ≤ scores.getD i.toNat 0))) ∧
    logAnomalyEvents [0, 2, 1] [0.9, 0.3, 0.7] 0.6 = [0, 2] ∧
    (logAnomalyEvents [0, 2, 1] [0.9, 0.3, 0.7] 0.6).length = 2 := by
  have hconc : logAnomalyEvents [0, 2, 1] [0.9, 0.3, 0.7] 0.6 = [0, 2] := by
    have hget2 : ([0.9, 0.3, 0.7] : List ℝ).getD ((2 : ℤ).toNat) 0 = 0.7 := rfl
    have hget1 : ([0.9, 0.3, 0.7] : List ℝ).getD ((1 : ℤ).toNat) 0 = 0.3 := rfl
    rw [logAnomalyEvents,
      if_pos (by norm_num [List.getD_cons_zero])]
    rw [logAnomalyEvents, if_pos (And.intro (by norm_num)
      (And.intro (by norm_num) (by rw [hget2]; norm_num)))]
    rw [logAnomalyEvents, if_neg (by
      intro hcon
      rcases hcon with ⟨h1, h2, hle⟩
      rw [hget1] at hle
      norm_num at hle)]
    rfl
  refine ⟨?_, hconc, by rw [hconc]; rfl⟩
  intro topIdx scores threshold
  refine ⟨logAnomalyEvents_filter topIdx scores threshold, ?_⟩
  rw [logAnomalyEvents_filter, ← List.countP_eq_length_filter]

/-- Claim C2 counterexample: for the empty series the code returns
`meanStd([]) = (0, 1)`, so `σ = 1` there — not `σ = 0` as the claim states
for every series of length `≤ 1`. -/
theorem c2_meanstd_empty_counterexample :
    (meanStd ([] : List ℝ)).2 = 1 ∧ (meanStd ([] : List ℝ)).2 ≠ 0 := by
  constructor
  · rfl
  · rw [show (meanStd ([] : List ℝ)).2 = 1 from rfl]
    norm_num

/-- Claim C2 (amended): the Normalizer computes `μ` and the population
standard deviation `σ = sqrt(mean squared deviation)` of the sanitized
series for every non-empty series — with `σ = 0` for a series of length 1 —
but returns `(μ, σ) = (0, 1)` for the empty series; each output element is
`(vᵢ − μ)/(σ + ε)` with `ε = 1e-9`. -/
theorem c2_normalizer_meanstd (x : List ℝ) :
    meanStd x = (if x.length = 0 then ((0 : ℝ), (1 : ℝ))
      else (listMean x, Real.sqrt (popVar x))) ∧
    (x.length = 1 → (meanStd x).2 = 0) ∧
    (normalizeSeries x).length = x.length ∧
    (∀ i, i < x.length →
      (normalizeSeries x).getD i 0 =
        (x.getD i 0 - (meanStd x).1) / ((meanStd x).2 + 1 / 1000000000)) := by
  refine ⟨?_, ?_, by simp [normalizeSeries], ?_⟩
  · by_cases h : x.length = 0
    · rw [meanStd, if_pos h, if_pos h]
    · rw [meanStd, if_neg h, if_neg h]
      simp only [listMean, popVar, pow_two]
  · intro h1
    rcases List.length_eq_one.1 h1 with ⟨a, rfl⟩
    rw [meanStd, if_neg (by simp)]
    simp only [List.length_singleton, Nat.cast_one, List.sum_singleton, List.map_singleton]
    rw [show a - a / 1 = 0 by ring]
    norm_num
  · intro i hi
    have hi2 : i < (normalizeSeries x).length := by
      simpa [normalizeSeries] using hi
    rw [List.getD_eq_getElem _ 0 hi2, List.getD_eq_getElem _ 0 hi]
    simp [normalizeSeries]

theorem c2_normalizer_meanstd_witness :
    meanStd [(3 : ℝ)] = (if ([(3 : ℝ)] : List ℝ).length = 0 then ((0 : ℝ), (1 : ℝ))
      else (listMean [(3 : ℝ)], Real.sqrt (popVar [(3 : ℝ)]))) ∧
    (meanStd [(3 : ℝ)]).2 = 0 ∧
    (normalizeSeries [(3 : ℝ)]).getD 0 0 =
      (([(3 : ℝ)] : List ℝ).getD 0 0 - (meanStd [(3 : ℝ)]).1) /
        ((meanStd [(3 : ℝ)]).2 + 1 / 1000000000) :=
  ⟨(c2_normalizer_meanstd [(3 : ℝ)]).1,
   (c2_normalizer_meanstd [(3 : ℝ)]).2.1 (by simp),
   (c2_normalizer_meanstd [(3 : ℝ)]).2.2.2 0 (by simp)⟩

/-- Claim C4: for every series and every `k ≥ 0` the selector returns exactly
`min(k, |S|)` indices, all valid, sorted by descending score, plus a full
score vector of length `|S|`; the empty series yields an empty result, and
forest construction on empty data draws no samples and does not fail
(every tree is an immediate depth-0 leaf, for any tree count and ψ). -/
theorem c4_top_k_selector (vals : List ℝ) (k : ℕ) (g : ℕ → ℝ)
    (sample : ℕ → ℕ → ℕ) :
    (detectAnomalies vals k g sample).1.length = min k vals.length ∧
    (∀ i ∈ (detectAnomalies vals k g sample).1, i < vals.length) ∧
    (detectAnomalies vals k g sample).2.length = vals.length ∧
    List.Pairwise (scoreGE (detectAnomalies vals k g sample).2)
      (detectAnomalies vals k g sample).1 ∧
    detectAnomalies ([] : List ℝ) k g sample = ([], []) ∧
    (∀ (t : ℕ) (psi0 : ℤ),
      (iforest.New ([] : List ℝ) t psi0 g sample).trees =
        List.replicate t (iforest.Tree.leaf 0)) := by
  have hnorm : (normalizeSeries vals).length = vals.length := by
    simp [normalizeSeries]
  set norm := normalizeSeries vals with hn
  set f := iforest.New norm 100 (min 64 (norm.length : ℤ)) g sample with hf
  set scores := norm.map (iforest.Score f) with hsc
  set idx := List.insertionSort (scoreGE scores) (List.range norm.length) with hidx
  have hd : detectAnomalies vals k g sample =
      (idx.take (min k idx.length), scores) := rfl
  have hperm : List.Perm idx (List.range norm.length) :=
    List.perm_insertionSort (scoreGE scores) (List.range norm.length)
  have hlen_idx : idx.length = vals.length := by
    rw [hperm.length_eq, List.length_range, hnorm]
  refine ⟨?_, ?_, ?_, ?_, ?_, ?_⟩
  · rw [hd]
    simp only [List.length_take]
    omega
  · intro i hi
    rw [hd] at hi
    have hmem : i ∈ idx := List.take_subset _ _ hi
    have : i ∈ List.range norm.length := hperm.mem_iff.1 hmem
    have := List.mem_range.1 this
    omega
  · rw [hd]
    simp only [hsc, List.length_map]
    exact hnorm
  · rw [hd]
    have hsorted : List.Pairwise (scoreGE scores) idx :=
      List.sorted_insertionSort (scoreGE scores) (List.range norm.length)
    exact hsorted.sublist (List.take_sublist _ _)
  · simp [detectAnomalies, normalizeSeries]
  · intro t psi0
    exact iforest.New_nil_trees t psi0 g sample

theorem c4_top_k_selector_witness :
    (detectAnomalies ([] : List ℝ) 3 (fun _ => 0) (fun _ _ => 0)).1.length =
      min 3 (List.length ([] : List ℝ)) ∧
    detectAnomalies ([] : List ℝ) 3 (fun _ => 0) (fun _ _ => 0) = ([], []) :=
  ⟨(c4_top_k_selector [] 3 (fun _ => 0) (fun _ _ => 0)).1,
   (c4_top_k_selector [] 3 (fun _ => 0) (fun _ _ => 0)).2.2.2.2.1⟩

end ifservice
